import Mathlib

/-!
Shallow embedding of the "Arrows and Arrows" solver (src/src/main.rs).

Modelling conventions:
* Rust `uint` is modelled as `Nat` and `int` as `Int`.  The one place where
  machine-width behaviour is observable for values the program can actually
  produce is the cast `(dim + new) as uint` in `step`, applied to a possibly
  negative signed value; that cast is modelled by `castToUint`, which is exact
  on non-negative values and wraps two's-complement style (64-bit) on negative
  ones, exactly as on the 64-bit targets the program compiles for.
* Rust panics are modelled as `Except.error` (for `get_cycle_from` and the
  input parser) — the spec's OutOfBounds / ParseError kinds.
* The `HashMap<(uint,uint), uint>` of visited coordinates is modelled as an
  association list `List (Coord × Nat)` with fresh keys consed at the front;
  the map is only ever queried for membership and for the stored index, so any
  key-value map is an admissible model (spec §9 notes this explicitly).
* The `while` loop of `get_cycle_from` is modelled by the fuel-indexed
  `traceFuel`; `get_cycle_from` supplies fuel `width*height + 1`, and we prove
  (pigeonhole) that this fuel never runs out, i.e. the Rust loop terminates.
* Reading the input file is I/O; `from_input_file` is modelled from the point
  where the file's lines are in memory (`from_input_lines`).
-/

namespace Arrows

abbrev Coord := Nat × Nat

/-- Embeds the cast `n as int` of a `uint` value on the 64-bit target: the
bit pattern `n mod 2^64` read as a two's-complement signed value, so values
below `2^63` are unchanged and larger ones become negative. -/
def intOfUint (n : Nat) : Int :=
  if n % 2 ^ 64 < 2 ^ 63 then ((n % 2 ^ 64 : Nat) : Int)
  else ((n % 2 ^ 64 : Nat) : Int) - 2 ^ 64

/-- Reduction of a signed value into the 64-bit `int` range `[-2^63, 2^63)`:
the result of Rust's (pre-1.0, silently wrapping) signed addition. -/
def wrapInt (i : Int) : Int := (i + 2 ^ 63) % 2 ^ 64 - 2 ^ 63

/-- Embeds the cast `i as uint` of an `int` value: the two's-complement bit
pattern read back as an unsigned number, `i mod 2^64`. -/
def castToUint (i : Int) : Nat := (i % 2 ^ 64).toNat

/-- Embeds `fn step(pos: uint, delta: int, dimension: uint) -> uint` with the
64-bit machine semantics of every operation: `pos as int` and
`dimension as int` are `intOfUint`, the signed `+` wraps (`wrapInt`), `%` on
`int` is `Int.tmod` (truncated remainder), and `as uint` is `castToUint`. -/
def step (pos : Nat) (delta : Int) (dimension : Nat) : Nat :=
  let dim : Int := intOfUint dimension
  let new : Int := wrapInt (intOfUint pos + delta)
  if 0 ≤ new then castToUint (Int.tmod new dim) else castToUint (wrapInt (dim + new))

/-- Embeds `enum Direction`. -/
inductive Direction where
  | Up
  | Down
  | Left
  | Right
deriving DecidableEq, Repr

/-- Embeds `struct GraphMeta`. -/
structure GraphMeta where
  width : Nat
  height : Nat
  pointers : List (List Direction)
deriving DecidableEq, Repr

/-- Embeds `struct Node`. -/
structure Node where
  x : Nat
  y : Nat
  pointer : Direction
deriving DecidableEq, Repr

/-- Embeds `type Cycle = Vec<Node>`. -/
abbrev Cycle := List Node

/-- The Grid invariant of spec §3: exactly `height` rows, each of exactly
`width` entries (`from_input_file` establishes it). -/
def wellFormed (g : GraphMeta) : Prop :=
  g.pointers.length = g.height ∧ ∀ row ∈ g.pointers, row.length = g.width

instance (g : GraphMeta) : Decidable (wellFormed g) := by
  unfold wellFormed; infer_instance

/-- Embeds the read `self.pointers[cur_y][cur_x]`.  The Rust indexing panics out of bounds;
every access the program performs is in bounds (proved below), so a default
value is an admissible model of the in-bounds read. -/
def dirAt (g : GraphMeta) (x y : Nat) : Direction :=
  (g.pointers.getD y []).getD x Direction.Up

/-- The `Node` recorded for a coordinate: the coordinate paired with the
`Direction` stored there. -/
def nodeAt (g : GraphMeta) (c : Coord) : Node :=
  ⟨c.1, c.2, dirAt g c.1 c.2⟩

/-- Spec §4.1 NeighborOf: the `match pointer` in `get_cycle_from`'s loop body
computing `(next_x, next_y)`. -/
def neighborOf (g : GraphMeta) (c : Coord) : Coord :=
  match dirAt g c.1 c.2 with
  | Direction.Up => (c.1, step c.2 (-1) g.height)
  | Direction.Down => (c.1, step c.2 1 g.height)
  | Direction.Left => (step c.1 (-1) g.width, c.2)
  | Direction.Right => (step c.1 1 g.width, c.2)

/-- Lookup in the association-list model of `node_coords`:
`contains_key` is success of the lookup, `get` is the returned index. -/
def lookupCoord (c : Coord) : List (Coord × Nat) → Option Nat
  | [] => none
  | e :: rest => if e.1 = c then some e.2 else lookupCoord c rest

/-- The `while ! node_coords.contains_key(&(cur_x, cur_y))` loop of
`get_cycle_from`, with explicit fuel.  On a hit the Rust code leaves the loop
and reads `cycle_start = node_coords[cur]`; here the fused lookup returns the
accumulated `cycle` together with that `cycle_start`. -/
def traceFuel (g : GraphMeta) :
    Nat → Coord → List (Coord × Nat) → Nat → Cycle → Option (Cycle × Nat)
  | 0, _, _, _, _ => none
  | fuel + 1, cur, node_coords, i, cycle =>
    match lookupCoord cur node_coords with
    | some cycle_start => some (cycle, cycle_start)
    | none =>
      traceFuel g fuel (neighborOf g cur) ((cur, i) :: node_coords) (i + 1)
        (cycle ++ [nodeAt g cur])

/-- Embeds `GraphMeta::get_cycle_from`.  The out-of-bounds panic is the
`Except.error`; the fuel `width*height + 1` is proved sufficient below, so the
second `error` branch is unreachable and models nothing in the Rust code.
Rust's `if cycle_start != 0 { slice_from(cycle_start) } else { cycle }` is
`List.drop cycle_start` (dropping 0 elements is the identity). -/
def get_cycle_from (g : GraphMeta) (x y : Nat) : Except String Cycle :=
  if x ≥ g.width ∨ y ≥ g.height then
    Except.error "x or y position out of bounds."
  else
    match traceFuel g (g.width * g.height + 1) (x, y) [] 0 [] with
    | some (cycle, cycle_start) => Except.ok (cycle.drop cycle_start)
    | none => Except.error "loop failed to terminate within the fuel bound"

/-- The value `get_cycle_from` produces at an in-bounds coordinate of a
well-formed grid (where it never errors); used by `get_max_cycle`, whose Rust
original calls `get_cycle_from` directly. -/
def cycleAt (g : GraphMeta) (x y : Nat) : Cycle :=
  match get_cycle_from g x y with
  | Except.ok c => c
  | Except.error _ => []

/-- The coordinates scanned by `get_max_cycle`, in its exact order:
`x` outer from 0 to width-1, `y` inner from 0 to height-1. -/
def coordsList (w h : Nat) : List Coord :=
  (List.range w).flatMap fun x => (List.range h).map fun y => (x, y)

/-- Embeds `GraphMeta::get_max_cycle`: scan all coordinates, keep
`(max_length, max_cycle)`, update only on strictly greater length. -/
def get_max_cycle (g : GraphMeta) : Cycle :=
  ((coordsList g.width g.height).foldl
    (fun acc c =>
      if acc.1 < (cycleAt g c.1 c.2).length
      then ((cycleAt g c.1 c.2).length, cycleAt g c.1 c.2) else acc)
    ((0, []) : Nat × Cycle)).2

/-- The `n`-fold iteration of `neighborOf`: the coordinate the walk of
`get_cycle_from` occupies after `n` loop iterations. -/
def iterC (g : GraphMeta) (p : Coord) : Nat → Coord
  | 0 => p
  | n + 1 => neighborOf g (iterC g p n)

/-- The contents of `node_coords` after `i` loop iterations (most recent
insertion first). -/
def visitedOf (g : GraphMeta) (p : Coord) (i : Nat) : List (Coord × Nat) :=
  ((List.range i).map fun j => (iterC g p j, j)).reverse

/-- The contents of `cycle` (the recorded trace) after `i` loop iterations. -/
def traceOf (g : GraphMeta) (p : Coord) (i : Nat) : Cycle :=
  (List.range i).map fun n => nodeAt g (iterC g p n)

/-! ### Input parsing (`GraphMeta::from_input_file`) -/

lemma castToUint_lt_two_pow (i : Int) : castToUint i < 2 ^ 64 := by
  unfold castToUint
  omega

/-- Wrapping a signed addition result before the `as uint` cast does not
change the bit pattern the cast reads. -/
lemma castToUint_wrapInt (i : Int) : castToUint (wrapInt i) = castToUint i := by
  unfold castToUint wrapInt
  omega

lemma castToUint_int_eq {i : Int} (h1 : 0 ≤ i) (h2 : i < 2 ^ 64) :
    ((castToUint i : Nat) : Int) = i := by
  unfold castToUint
  omega

lemma wrapInt_eq_self {i : Int} (h1 : -(2 ^ 63) ≤ i) (h2 : i < 2 ^ 63) :
    wrapInt i = i := by
  unfold wrapInt
  omega

lemma wrapInt_mem (i : Int) : -(2 ^ 63) ≤ wrapInt i ∧ wrapInt i < 2 ^ 63 := by
  unfold wrapInt
  omega

lemma intOfUint_of_lt {n : Nat} (h : n < 2 ^ 63) : intOfUint n = (n : Int) := by
  unfold intOfUint
  split <;> omega

lemma intOfUint_of_ge {n : Nat} (h1 : 2 ^ 63 ≤ n) (h2 : n < 2 ^ 64) :
    intOfUint n = (n : Int) - 2 ^ 64 := by
  unfold intOfUint
  split <;> omega

/-- Any integer in `[-D, 0)` is `D` more than its own residue modulo `D`. -/
lemma emod_shift {a D : Int} (_hD : 0 < D) (h1 : -D ≤ a) (h2 : a < 0) :
    a % D = a + D := by
  have e1 : a % D = (a + D * 1) % D := (Int.add_mul_emod_self_left a D 1).symm
  have e2 : a + D * 1 = a + D := by ring
  rw [e1, e2]
  exact Int.emod_eq_of_lt (by omega) (by omega)

/-- Truncated remainder by `-2^63` of a value already in `[0, 2^63)` is the
value itself. -/
lemma tmod_small_neg_pow {a : Int} (h1 : 0 ≤ a) (h2 : a < 2 ^ 63) :
    Int.tmod a (-(2 ^ 63)) = a := by
  rw [Int.tmod_neg, Int.tmod_eq_emod h1 (by omega)]
  exact Int.emod_eq_of_lt h1 h2

/-- Unfolding of `step` with its `let`s reduced. -/
lemma step_eq (pos : Nat) (delta : Int) (dimension : Nat) :
    step pos delta dimension =
      if 0 ≤ wrapInt (intOfUint pos + delta) then
        castToUint (Int.tmod (wrapInt (intOfUint pos + delta)) (intOfUint dimension))
      else castToUint (wrapInt (intOfUint dimension + wrapInt (intOfUint pos + delta))) :=
  rfl

/-- For dimensions up to `2^63` (all a materialisable grid can have) and a
signed intermediate `pos + delta` inside `[-D, 2^63)`, no cast or addition in
`step` wraps observably, and `step` computes the mathematically correct
non-negative modulo, in `[0, D)`. -/
lemma step_spec {D p : Nat} {δ : Int} (hD : 0 < D) (hD2 : D ≤ 2 ^ 63)
    (hp : p < D) (hlo : -(D : Int) ≤ (p : Int) + δ)
    (hhi : (p : Int) + δ < 2 ^ 63) :
    ((step p δ D : Nat) : Int) = ((p : Int) + δ) % (D : Int) ∧ step p δ D < D := by
  have hD' : (0 : Int) < (D : Int) := by exact_mod_cast hD
  have hD2' : (D : Int) ≤ 2 ^ 63 := by exact_mod_cast hD2
  have hnew : wrapInt (intOfUint p + δ) = (p : Int) + δ := by
    rw [intOfUint_of_lt (show p < 2 ^ 63 by omega)]
    exact wrapInt_eq_self (by omega) hhi
  rw [step_eq, hnew]
  by_cases hsgn : (0 : Int) ≤ (p : Int) + δ
  · rw [if_pos hsgn]
    rcases Nat.lt_or_ge D (2 ^ 63) with hD3 | hD3
    · rw [intOfUint_of_lt hD3, Int.tmod_eq_emod hsgn (by omega)]
      have h2 : 0 ≤ ((p : Int) + δ) % (D : Int) := Int.emod_nonneg _ (by omega)
      have h3 : ((p : Int) + δ) % (D : Int) < (D : Int) := Int.emod_lt_of_pos _ hD'
      have h4 := castToUint_int_eq h2 (by omega)
      exact ⟨h4, by omega⟩
    · have hD4 : D = 2 ^ 63 := by omega
      subst hD4
      have hdim : intOfUint (2 ^ 63) = -(2 ^ 63) := by decide
      rw [hdim, tmod_small_neg_pow hsgn (by omega)]
      have hmod : ((p : Int) + δ) % ((2 ^ 63 : Nat) : Int) = (p : Int) + δ :=
        Int.emod_eq_of_lt hsgn (by omega)
      rw [hmod]
      have h4 := castToUint_int_eq hsgn (show (p : Int) + δ < 2 ^ 64 by omega)
      exact ⟨h4, by omega⟩
  · rw [if_neg hsgn]
    push_neg at hsgn
    rw [castToUint_wrapInt]
    have hmod := emod_shift hD' hlo hsgn
    rcases Nat.lt_or_ge D (2 ^ 63) with hD3 | hD3
    · rw [intOfUint_of_lt hD3]
      have h4 := castToUint_int_eq (i := (D : Int) + ((p : Int) + δ))
        (by omega) (by omega)
      refine ⟨?_, by omega⟩
      rw [h4, hmod]
      ring
    · have hD4 : D = 2 ^ 63 := by omega
      subst hD4
      have hdim : intOfUint (2 ^ 63) = -(2 ^ 63) := by decide
      rw [hdim]
      have h4 : ((castToUint (-(2 ^ 63) + ((p : Int) + δ)) : Nat) : Int)
          = ((p : Int) + δ) + ((2 ^ 63 : Nat) : Int) := by
        unfold castToUint
        omega
      refine ⟨?_, by omega⟩
      rw [h4, hmod]

/-- Stepping by `±1` stays inside `[0, D)` — for every positive `D`.  For
`D ≤ 2^63` this follows from `step_spec` (plus one concrete boundary point);
for `2^63 < D < 2^64` the wrapped arithmetic still lands below `D`, and for
`D ≥ 2^64` any `uint` result at all is below `D`. -/
lemma step_lt {D p : Nat} (hD : 0 < D) (hp : p < D) {δ : Int}
    (hδ : δ = 1 ∨ δ = -1) : step p δ D < D := by
  rcases Nat.lt_or_ge D (2 ^ 64) with hD64 | hD64
  · rcases Nat.lt_or_ge (2 ^ 63) D with hDbig | hDsmall
    · have hdim : intOfUint D = (D : Int) - 2 ^ 64 := intOfUint_of_ge (by omega) hD64
      have hnewmem := wrapInt_mem (intOfUint p + δ)
      rw [step_eq, hdim]
      by_cases hsgn : 0 ≤ wrapInt (intOfUint p + δ)
      · rw [if_pos hsgn]
        have ht : Int.tmod (wrapInt (intOfUint p + δ)) ((D : Int) - 2 ^ 64)
            = wrapInt (intOfUint p + δ) % (2 ^ 64 - (D : Int)) := by
          have e : (D : Int) - 2 ^ 64 = -(2 ^ 64 - (D : Int)) := by ring
          rw [e, Int.tmod_neg, Int.tmod_eq_emod hsgn (by omega)]
        rw [ht]
        have h2 : 0 ≤ wrapInt (intOfUint p + δ) % (2 ^ 64 - (D : Int)) :=
          Int.emod_nonneg _ (by omega)
        have h3 : wrapInt (intOfUint p + δ) % (2 ^ 64 - (D : Int))
            < 2 ^ 64 - (D : Int) :=
          Int.emod_lt_of_pos _ (by omega)
        have h4 := castToUint_int_eq h2 (by omega)
        omega
      · rw [if_neg hsgn]
        push_neg at hsgn
        rw [castToUint_wrapInt]
        have h4 : ((castToUint ((D : Int) - 2 ^ 64 + wrapInt (intOfUint p + δ)) : Nat)
            : Int) = (D : Int) + wrapInt (intOfUint p + δ) := by
          unfold castToUint
          omega
        omega
    · rcases hδ with rfl | rfl
      · by_cases hb : (p : Int) + 1 < 2 ^ 63
        · exact (step_spec hD hDsmall hp (by omega) hb).2
        · have hp63 : p = 2 ^ 63 - 1 := by omega
          have hD63 : D = 2 ^ 63 := by omega
          subst hp63
          subst hD63
          decide
      · exact (step_spec hD hDsmall hp (by omega) (by omega)).2
  · rw [step_eq]
    split
    · exact lt_of_lt_of_le (castToUint_lt_two_pow _) (by omega)
    · exact lt_of_lt_of_le (castToUint_lt_two_pow _) (by omega)

/-- The successor function `neighborOf` keeps coordinates in bounds. -/
lemma neighborOf_lt {g : GraphMeta} {c : Coord}
    (hx : c.1 < g.width) (hy : c.2 < g.height) :
    (neighborOf g c).1 < g.width ∧ (neighborOf g c).2 < g.height := by
  have hW : 0 < g.width := by omega
  have hH : 0 < g.height := by omega
  unfold neighborOf
  cases dirAt g c.1 c.2 <;> simp only
  · exact ⟨hx, step_lt hH hy (Or.inr rfl)⟩
  · exact ⟨hx, step_lt hH hy (Or.inl rfl)⟩
  · exact ⟨step_lt (by omega) hx (Or.inr rfl), hy⟩
  · exact ⟨step_lt (by omega) hx (Or.inl rfl), hy⟩

/-! ### The walk of `get_cycle_from` -/

lemma iterC_zero (g : GraphMeta) (p : Coord) : iterC g p 0 = p := rfl

lemma iterC_succ (g : GraphMeta) (p : Coord) (n : Nat) :
    iterC g p (n + 1) = neighborOf g (iterC g p n) := rfl

/-- Every coordinate the walk visits is in bounds. -/
lemma iterC_lt {g : GraphMeta} {p : Coord}
    (hx : p.1 < g.width) (hy : p.2 < g.height) (n : Nat) :
    (iterC g p n).1 < g.width ∧ (iterC g p n).2 < g.height := by
  induction n with
  | zero => exact ⟨hx, hy⟩
  | succ n ih => exact neighborOf_lt ih.1 ih.2

/-- Pigeonhole: among the first `width*height + 1` visited coordinates two
are equal, so the walk repeats within the coordinate space's size. -/
lemma exists_repeat {g : GraphMeta} {p : Coord}
    (hx : p.1 < g.width) (hy : p.2 < g.height) :
    ∃ t, t ≤ g.width * g.height ∧ ∃ k, k < t ∧ iterC g p k = iterC g p t := by
  have hmap : ∀ n ∈ Finset.range (g.width * g.height + 1),
      iterC g p n ∈ Finset.range g.width ×ˢ Finset.range g.height := by
    intro n _
    have h := iterC_lt hx hy n
    simp only [Finset.mem_product, Finset.mem_range]
    exact ⟨h.1, h.2⟩
  have hcard : (Finset.range g.width ×ˢ Finset.range g.height).card
      < (Finset.range (g.width * g.height + 1)).card := by
    rw [Finset.card_product, Finset.card_range, Finset.card_range, Finset.card_range]
    omega
  obtain ⟨a, ha, b, hb, hab, heq⟩ :=
    Finset.exists_ne_map_eq_of_card_lt_of_maps_to hcard hmap
  simp only [Finset.mem_range] at ha hb
  rcases Nat.lt_or_ge a b with h | h
  · exact ⟨b, by omega, a, h, heq⟩
  · have h' : b < a := by omega
    exact ⟨a, by omega, b, h', heq.symm⟩

lemma lookupCoord_eq_none {c : Coord} {l : List (Coord × Nat)}
    (h : ∀ e ∈ l, e.1 ≠ c) : lookupCoord c l = none := by
  induction l with
  | nil => rfl
  | cons e rest ih =>
    have he : e.1 ≠ c := h e (List.mem_cons_self e rest)
    simp only [lookupCoord, if_neg he]
    exact ih fun e' he' => h e' (List.mem_cons_of_mem e he')

lemma mem_visitedOf {g : GraphMeta} {p : Coord} {i : Nat} {e : Coord × Nat} :
    e ∈ visitedOf g p i ↔ ∃ j, j < i ∧ e = (iterC g p j, j) := by
  unfold visitedOf
  simp only [List.mem_reverse, List.mem_map, List.mem_range]
  constructor
  · rintro ⟨j, hj, rfl⟩
    exact ⟨j, hj, rfl⟩
  · rintro ⟨j, hj, rfl⟩
    exact ⟨j, hj, rfl⟩

/-- If the walk has not yet revisited the coordinate `c`, the visited map
contains no entry for it. -/
lemma lookupCoord_visitedOf_none {g : GraphMeta} {p : Coord} {i : Nat}
    (h : ∀ j, j < i → iterC g p j ≠ iterC g p i) :
    lookupCoord (iterC g p i) (visitedOf g p i) = none := by
  apply lookupCoord_eq_none
  intro e he
  obtain ⟨j, hj, rfl⟩ := mem_visitedOf.mp he
  exact h j hj

lemma visitedOf_succ (g : GraphMeta) (p : Coord) (i : Nat) :
    visitedOf g p (i + 1) = (iterC g p i, i) :: visitedOf g p i := by
  unfold visitedOf
  rw [List.range_succ, List.map_append, List.reverse_append]
  rfl

lemma traceOf_succ (g : GraphMeta) (p : Coord) (i : Nat) :
    traceOf g p (i + 1) = traceOf g p i ++ [nodeAt g (iterC g p i)] := by
  unfold traceOf
  rw [List.range_succ, List.map_append]
  rfl

lemma traceOf_length (g : GraphMeta) (p : Coord) (i : Nat) :
    (traceOf g p i).length = i := by
  unfold traceOf
  rw [List.length_map, List.length_range]

/-- If the coordinate `c` was first (and only) visited at step `k < i`, the
visited map yields exactly `k` for it. -/
lemma lookupCoord_visitedOf_some {g : GraphMeta} {p : Coord} {i k : Nat} {c : Coord}
    (hk : k < i) (hc : iterC g p k = c)
    (huniq : ∀ j, j < i → iterC g p j = c → j = k) :
    lookupCoord c (visitedOf g p i) = some k := by
  induction i with
  | zero => omega
  | succ i ih =>
    rw [visitedOf_succ]
    by_cases hi : iterC g p i = c
    · have : i = k := huniq i (by omega) hi
      subst this
      simp only [lookupCoord, if_pos hi]
    · have hk' : k < i := by
        rcases Nat.lt_or_ge k i with h | h
        · exact h
        · have : k = i := by omega
          subst this
          exact absurd hc hi
      simp only [lookupCoord, if_neg hi]
      exact ih hk' fun j hj hjc => huniq j (by omega) hjc

/-- The loop of `get_cycle_from`, characterised: if the walk first repeats at
step `t` (revisiting the coordinate of step `k`), then from any intermediate
state at step `i ≤ t`, with enough fuel, the loop returns the full recorded
trace together with `cycle_start = k`. -/
lemma traceFuel_spec {g : GraphMeta} {p : Coord} {t k : Nat}
    (hk : k < t) (heq : iterC g p k = iterC g p t)
    (hmin : ∀ b, b < t → ∀ a, a < b → iterC g p a ≠ iterC g p b) :
    ∀ fuel i, i ≤ t → t < i + fuel →
      traceFuel g fuel (iterC g p i) (visitedOf g p i) i (traceOf g p i)
        = some (traceOf g p t, k) := by
  intro fuel
  induction fuel with
  | zero => intro i h1 h2; omega
  | succ fuel ih =>
    intro i h1 h2
    by_cases hit : i = t
    · subst hit
      have huniq : ∀ j, j < i → iterC g p j = iterC g p i → j = k := by
        intro j hj hjc
        by_contra hne
        rcases Nat.lt_or_ge j k with hlt | hge
        · exact hmin k hk j hlt (hjc.trans heq.symm)
        · have : k < j := by omega
          exact hmin j hj k this (heq.trans hjc.symm)
      have hlook : lookupCoord (iterC g p i) (visitedOf g p i) = some k :=
        lookupCoord_visitedOf_some hk heq huniq
      simp only [traceFuel, hlook]
    · have hi : i < t := by omega
      have hlook : lookupCoord (iterC g p i) (visitedOf g p i) = none :=
        lookupCoord_visitedOf_none fun j hj => hmin i hi j hj
      simp only [traceFuel, hlook]
      rw [← iterC_succ, ← visitedOf_succ, ← traceOf_succ]
      exact ih (i + 1) (by omega) (by omega)

/-- Master lemma: at any in-bounds start of any grid, the walk of
`get_cycle_from` stops at the first repeat step `t ≤ width*height`
(revisiting the coordinate first seen at step `k < t`, the walk being
injective on steps `0..t-1`), the loop (with the fuel `get_cycle_from`
supplies) returns the recorded trace of the first `t` nodes together with
`cycle_start = k`, and `get_cycle_from` returns that trace with its first `k`
nodes (the acyclic prelude) dropped. -/
lemma get_cycle_from_spec {g : GraphMeta} {x y : Nat}
    (hx : x < g.width) (hy : y < g.height) :
    ∃ t k, k < t ∧ t ≤ g.width * g.height ∧
      iterC g (x, y) k = iterC g (x, y) t ∧
      (∀ b, b < t → ∀ a, a < b → iterC g (x, y) a ≠ iterC g (x, y) b) ∧
      traceFuel g (g.width * g.height + 1) (x, y) [] 0 []
        = some (traceOf g (x, y) t, k) ∧
      get_cycle_from g x y = Except.ok ((traceOf g (x, y) t).drop k) := by
  classical
  obtain ⟨t1, ht1, k1, hk1, heq1⟩ :=
    exists_repeat (p := (x, y)) (g := g) hx hy
  have hex : ∃ t, ∃ k, k < t ∧ iterC g (x, y) k = iterC g (x, y) t :=
    ⟨t1, k1, hk1, heq1⟩
  obtain ⟨k0, hk0, heqk0⟩ := Nat.find_spec hex
  have ht0le : Nat.find hex ≤ t1 := Nat.find_min' hex ⟨k1, hk1, heq1⟩
  have hmin : ∀ b, b < Nat.find hex → ∀ a, a < b →
      iterC g (x, y) a ≠ iterC g (x, y) b := by
    intro b hb a hab hcontra
    exact Nat.find_min hex hb ⟨a, hab, hcontra⟩
  have htf : traceFuel g (g.width * g.height + 1) (x, y) [] 0 []
      = some (traceOf g (x, y) (Nat.find hex), k0) := by
    have h := traceFuel_spec hk0 heqk0 hmin (g.width * g.height + 1) 0
      (by omega) (by omega)
    simpa [iterC, visitedOf, traceOf] using h
  refine ⟨Nat.find hex, k0, hk0, by omega, heqk0, hmin, htf, ?_⟩
  unfold get_cycle_from
  have hcond : ¬(x ≥ g.width ∨ y ≥ g.height) := by omega
  rw [if_neg hcond, htf]

lemma traceOf_getElem {g : GraphMeta} {p : Coord} {t n : Nat} (hn : n < t) :
    (traceOf g p t)[n]? = some (nodeAt g (iterC g p n)) := by
  unfold traceOf
  rw [List.getElem?_map, List.getElem?_range hn]
  rfl

lemma traceOf_map_coord (g : GraphMeta) (p : Coord) (t : Nat) :
    (traceOf g p t).map (fun n => (n.x, n.y)) = (List.range t).map (iterC g p) := by
  unfold traceOf
  rw [List.map_map]
  rfl

/-! ### Claim theorems: the cycle finder -/

/-- Claim C1: for every well-formed grid and in-bounds start, the cycle
returned by `get_cycle_from` is closed (following `neighborOf` from the last
node's coordinate yields the first node's coordinate) and its coordinates are
pairwise distinct. -/
theorem claim_C1_cycle_closed_nodup (g : GraphMeta) (x y : Nat)
    (_hwf : wellFormed g) (hx : x < g.width) (hy : y < g.height)
    (c : Cycle) (hc : get_cycle_from g x y = Except.ok c) :
    (∃ f l, c.head? = some f ∧ c.getLast? = some l ∧
      neighborOf g (l.x, l.y) = (f.x, f.y)) ∧
    (c.map fun n => (n.x, n.y)).Nodup := by
  obtain ⟨t, k, hk, _htle, heq, hmin, _htf, hget⟩ := get_cycle_from_spec hx hy
  rw [hget] at hc
  have hc' : c = (traceOf g (x, y) t).drop k := by
    exact (Except.ok.injEq _ _ ▸ hc : _) |>.symm
  subst hc'
  have hlen : (traceOf g (x, y) t).length = t := traceOf_length g (x, y) t
  constructor
  · refine ⟨nodeAt g (iterC g (x, y) k), nodeAt g (iterC g (x, y) (t - 1)), ?_, ?_, ?_⟩
    · rw [List.head?_drop, traceOf_getElem hk]
    · rw [List.getLast?_eq_getElem?, List.getElem?_drop, List.length_drop, hlen]
      have harith : k + (t - k - 1) = t - 1 := by omega
      rw [harith, traceOf_getElem (by omega)]
    · show neighborOf g (iterC g (x, y) (t - 1)) = iterC g (x, y) k
      have ht1 : t - 1 + 1 = t := by omega
      calc neighborOf g (iterC g (x, y) (t - 1)) = iterC g (x, y) (t - 1 + 1) :=
            (iterC_succ g (x, y) (t - 1)).symm
        _ = iterC g (x, y) t := by rw [ht1]
        _ = iterC g (x, y) k := heq.symm
  · rw [List.map_drop, traceOf_map_coord]
    have hnodup : ((List.range t).map (iterC g (x, y))).Nodup := by
      rw [List.nodup_map_iff_inj_on (List.nodup_range t)]
      intro a ha b hb hab
      rw [List.mem_range] at ha hb
      by_contra hne
      rcases Nat.lt_or_ge a b with h | h
      · exact hmin b hb a h hab
      · exact hmin a ha b (by omega) hab.symm
    exact ((List.range t).map (iterC g (x, y))).drop_sublist k |>.nodup hnodup

/-- Concrete instance of C1 on the spec's 2×2 example grid. -/
def exGrid : GraphMeta :=
  ⟨2, 2, [[Direction.Up, Direction.Right], [Direction.Left, Direction.Down]]⟩

def exCycle : Cycle :=
  [⟨0, 0, Direction.Up⟩, ⟨0, 1, Direction.Left⟩,
   ⟨1, 1, Direction.Down⟩, ⟨1, 0, Direction.Right⟩]

theorem claim_C1_witness :
    (∃ f l, exCycle.head? = some f ∧ exCycle.getLast? = some l ∧
      neighborOf exGrid (l.x, l.y) = (f.x, f.y)) ∧
    (exCycle.map fun n => (n.x, n.y)).Nodup :=
  claim_C1_cycle_closed_nodup exGrid 0 0 (by decide) (by decide) (by decide)
    exCycle (by rfl)

/-- Claim C2: `get_cycle_from` returns exactly the recorded trace from index
`k` onward, where `k` is the step at which the first repeated coordinate was
originally visited; the prelude `0..k-1` is dropped, and for `k = 0` the whole
trace is returned unmodified. -/
theorem claim_C2_prelude_dropped (g : GraphMeta) (x y : Nat)
    (_hwf : wellFormed g) (hx : x < g.width) (hy : y < g.height) :
    ∃ t k, k < t ∧ iterC g (x, y) k = iterC g (x, y) t ∧
      (∀ b, b < t → ∀ a, a < b → iterC g (x, y) a ≠ iterC g (x, y) b) ∧
      traceFuel g (g.width * g.height + 1) (x, y) [] 0 []
        = some (traceOf g (x, y) t, k) ∧
      get_cycle_from g x y = Except.ok ((traceOf g (x, y) t).drop k) ∧
      (k = 0 → get_cycle_from g x y = Except.ok (traceOf g (x, y) t)) := by
  obtain ⟨t, k, hk, _htle, heq, hmin, htf, hget⟩ := get_cycle_from_spec hx hy
  refine ⟨t, k, hk, heq, hmin, htf, hget, ?_⟩
  intro hk0
  subst hk0
  rw [hget, List.drop_zero]

theorem claim_C2_witness :
    ∃ t k, k < t ∧ iterC exGrid (0, 0) k = iterC exGrid (0, 0) t ∧
      (∀ b, b < t → ∀ a, a < b → iterC exGrid (0, 0) a ≠ iterC exGrid (0, 0) b) ∧
      traceFuel exGrid (exGrid.width * exGrid.height + 1) (0, 0) [] 0 []
        = some (traceOf exGrid (0, 0) t, k) ∧
      get_cycle_from exGrid 0 0 = Except.ok ((traceOf exGrid (0, 0) t).drop k) ∧
      (k = 0 → get_cycle_from exGrid 0 0 = Except.ok (traceOf exGrid (0, 0) t)) :=
  claim_C2_prelude_dropped exGrid 0 0 (by decide) (by decide) (by decide)

/-- Claim C5: on a well-formed `W×H` grid the walk terminates — the loop,
given fuel `W*H + 1`, returns within at most `W*H` body iterations (the
recorded trace, one node per iteration, has length `≤ W*H`), and the returned
cycle has length at most `W*H`. -/
theorem claim_C5_termination_bound (g : GraphMeta) (x y : Nat)
    (_hwf : wellFormed g) (hx : x < g.width) (hy : y < g.height) :
    ∃ tr k, traceFuel g (g.width * g.height + 1) (x, y) [] 0 []
        = some (tr, k) ∧ tr.length ≤ g.width * g.height ∧
      ∀ c, get_cycle_from g x y = Except.ok c →
        c.length ≤ g.width * g.height := by
  obtain ⟨t, k, hk, htle, _heq, _hmin, htf, hget⟩ := get_cycle_from_spec hx hy
  refine ⟨traceOf g (x, y) t, k, htf, ?_, ?_⟩
  · rw [traceOf_length]
    exact htle
  · intro c hc
    rw [hget] at hc
    have hc' : c = (traceOf g (x, y) t).drop k :=
      ((Except.ok.injEq _ _ ▸ hc : _)).symm
    subst hc'
    rw [List.length_drop, traceOf_length]
    omega

theorem claim_C5_witness :
    ∃ tr k, traceFuel exGrid (exGrid.width * exGrid.height + 1) (0, 0) [] 0 []
        = some (tr, k) ∧ tr.length ≤ exGrid.width * exGrid.height ∧
      ∀ c, get_cycle_from exGrid 0 0 = Except.ok c →
        c.length ≤ exGrid.width * exGrid.height :=
  claim_C5_termination_bound exGrid 0 0 (by decide) (by decide) (by decide)

/-- Claim C8: on a well-formed grid, `get_cycle_from` fails with the
out-of-bounds error exactly when `x ≥ width` or `y ≥ height`, and returns a
cycle (no error) at every in-bounds coordinate.  (It is a pure function of
the grid — the embedding takes `g` as a read-only argument — so it mutates
nothing.) -/
theorem claim_C8_oob_error_iff (g : GraphMeta) (_hwf : wellFormed g) :
    (∀ x y, g.width ≤ x ∨ g.height ≤ y →
      get_cycle_from g x y = Except.error "x or y position out of bounds.") ∧
    (∀ x y, x < g.width → y < g.height →
      ∃ c, get_cycle_from g x y = Except.ok c) := by
  constructor
  · intro x y h
    unfold get_cycle_from
    rw [if_pos h]
  · intro x y hx hy
    obtain ⟨t, k, _, _, _, _, _, hget⟩ := get_cycle_from_spec hx hy
    exact ⟨_, hget⟩

theorem claim_C8_witness :
    (∀ x y, exGrid.width ≤ x ∨ exGrid.height ≤ y →
      get_cycle_from exGrid x y = Except.error "x or y position out of bounds.") ∧
    (∀ x y, x < exGrid.width → y < exGrid.height →
      ∃ c, get_cycle_from exGrid x y = Except.ok c) :=
  claim_C8_oob_error_iff exGrid (by decide)

/-! ### The maximum-cycle scan -/

/-- At an in-bounds coordinate the walk cannot error, so `cycleAt` is the
cycle `get_cycle_from` returns, and it is nonempty. -/
lemma cycleAt_spec {g : GraphMeta} {x y : Nat}
    (hx : x < g.width) (hy : y < g.height) :
    get_cycle_from g x y = Except.ok (cycleAt g x y) ∧
    1 ≤ (cycleAt g x y).length := by
  obtain ⟨t, k, hk, _htle, _heq, _hmin, _htf, hget⟩ := get_cycle_from_spec hx hy
  have hca : cycleAt g x y = (traceOf g (x, y) t).drop k := by
    unfold cycleAt
    rw [hget]
  constructor
  · rw [hca]
    exact hget
  · rw [hca, List.length_drop, traceOf_length]
    omega

lemma mem_coordsList {w h : Nat} {c : Coord} :
    c ∈ coordsList w h ↔ c.1 < w ∧ c.2 < h := by
  unfold coordsList
  rw [List.mem_flatMap]
  constructor
  · rintro ⟨x, hx, hc⟩
    rw [List.mem_range] at hx
    obtain ⟨y, hy, rfl⟩ := List.mem_map.mp hc
    rw [List.mem_range] at hy
    exact ⟨hx, hy⟩
  · rintro ⟨h1, h2⟩
    refine ⟨c.1, List.mem_range.mpr h1, List.mem_map.mpr ⟨c.2, List.mem_range.mpr h2, ?_⟩⟩
    rfl

/-- The scan order of `get_max_cycle` is strictly increasing in the
"x first, then y" lexicographic order. -/
lemma pairwise_coordsList (w h : Nat) :
    List.Pairwise (fun a b : Coord => a.1 < b.1 ∨ (a.1 = b.1 ∧ a.2 < b.2))
      (coordsList w h) := by
  unfold coordsList
  rw [List.pairwise_flatMap]
  constructor
  · intro x _
    rw [List.pairwise_map]
    exact (List.pairwise_lt_range h).imp fun hab => Or.inr ⟨rfl, hab⟩
  · apply (List.pairwise_lt_range w).imp
    intro x1 x2 h12
    intro c1 hc1 c2 hc2
    obtain ⟨y1, _, rfl⟩ := List.mem_map.mp hc1
    obtain ⟨y2, _, rfl⟩ := List.mem_map.mp hc2
    exact Or.inl h12

lemma coordsList_nil {w h : Nat} (hwh : w = 0 ∨ h = 0) : coordsList w h = [] := by
  rcases hwh with rfl | rfl
  · rfl
  · unfold coordsList
    rw [List.flatMap_eq_nil_iff]
    intro x _
    rfl

/-- The `(max_length, max_cycle)` accumulation of `get_max_cycle`: the result
pairs a length with a cycle of that length, the final length bounds the
initial one and every scanned candidate's length, and the final cycle is
either the initial one (nothing was strictly greater) or the first scanned
candidate achieving the final length, every earlier candidate being strictly
shorter. -/
lemma foldlMax_spec (g : GraphMeta) (l : List Coord) :
    ∀ (acc : Nat × Cycle), acc.1 = acc.2.length →
    ∀ r, r = l.foldl (fun acc c =>
        if acc.1 < (cycleAt g c.1 c.2).length
        then ((cycleAt g c.1 c.2).length, cycleAt g c.1 c.2) else acc) acc →
      r.1 = r.2.length ∧ acc.1 ≤ r.1 ∧
      (∀ c ∈ l, (cycleAt g c.1 c.2).length ≤ r.1) ∧
      (r = acc ∨ ∃ l1 c l2, l = l1 ++ c :: l2 ∧ r.2 = cycleAt g c.1 c.2 ∧
        r.1 = (cycleAt g c.1 c.2).length ∧ acc.1 < r.1 ∧
        ∀ e ∈ l1, (cycleAt g e.1 e.2).length < r.1) := by
  induction l with
  | nil =>
    intro acc hacc r hr
    rw [List.foldl_nil] at hr
    subst hr
    refine ⟨hacc, le_refl _, ?_, Or.inl rfl⟩
    intro c hc
    cases hc
  | cons c0 l ih =>
    intro acc hacc r hr
    rw [List.foldl_cons] at hr
    by_cases h0 : acc.1 < (cycleAt g c0.1 c0.2).length
    · rw [if_pos h0] at hr
      obtain ⟨h1, h2, h3, h4⟩ := ih ((cycleAt g c0.1 c0.2).length, cycleAt g c0.1 c0.2)
        rfl r hr
      refine ⟨h1, by omega, ?_, ?_⟩
      · intro c hc
        rcases List.mem_cons.mp hc with rfl | hc'
        · exact h2
        · exact h3 c hc'
      · rcases h4 with rfl | ⟨l1, c, l2, hsplit, hr2, hr1, hlt, hpre⟩
        · exact Or.inr ⟨[], c0, l, rfl, rfl, rfl, h0, by intro e he; cases he⟩
        · refine Or.inr ⟨c0 :: l1, c, l2, by rw [hsplit, List.cons_append], hr2, hr1, by omega, ?_⟩
          intro e he
          rcases List.mem_cons.mp he with rfl | he'
          · omega
          · exact hpre e he'
    · rw [if_neg h0] at hr
      obtain ⟨h1, h2, h3, h4⟩ := ih acc hacc r hr
      refine ⟨h1, h2, ?_, ?_⟩
      · intro c hc
        rcases List.mem_cons.mp hc with rfl | hc'
        · omega
        · exact h3 c hc'
      · rcases h4 with rfl | ⟨l1, c, l2, hsplit, hr2, hr1, hlt, hpre⟩
        · exact Or.inl rfl
        · refine Or.inr ⟨c0 :: l1, c, l2, by rw [hsplit, List.cons_append], hr2, hr1, hlt, ?_⟩
          intro e he
          rcases List.mem_cons.mp he with rfl | he'
          · omega
          · exact hpre e he'

/-- The common application of `foldlMax_spec` for a nondegenerate grid:
`get_max_cycle` is the candidate of the first coordinate (in scan order)
achieving the maximal length. -/
lemma get_max_cycle_split {g : GraphMeta} (hW : 0 < g.width) (hH : 0 < g.height) :
    ∃ l1 c l2, coordsList g.width g.height = l1 ++ c :: l2 ∧
      get_max_cycle g = cycleAt g c.1 c.2 ∧
      (∀ e ∈ coordsList g.width g.height,
        (cycleAt g e.1 e.2).length ≤ (cycleAt g c.1 c.2).length) ∧
      (∀ e ∈ l1, (cycleAt g e.1 e.2).length < (cycleAt g c.1 c.2).length) := by
  obtain ⟨h1, _h2, h3, h4⟩ := foldlMax_spec g (coordsList g.width g.height)
    ((0, []) : Nat × Cycle) rfl _ rfl
  rcases h4 with heq | ⟨l1, c, l2, hsplit, hr2, hr1, _hlt, hpre⟩
  · exfalso
    have hmem : ((0, 0) : Coord) ∈ coordsList g.width g.height :=
      mem_coordsList.mpr ⟨hW, hH⟩
    have := h3 _ hmem
    have hpos := (cycleAt_spec (g := g) (x := 0) (y := 0) hW hH).2
    rw [heq] at this
    simp only at this
    omega
  · refine ⟨l1, c, l2, hsplit, hr2, ?_, ?_⟩
    · intro e he
      have := h3 e he
      omega
    · intro e he
      have := hpre e he
      omega

/-- Claim C3: `get_max_cycle` scans x-outer/y-inner, keeps a candidate only
on strictly greater length, and hence returns the cycle traced from the
coordinate with the smallest x (then smallest y) among those achieving the
maximal length: every other coordinate whose trace has maximal length is
strictly greater in that order. -/
theorem claim_C3_tiebreak (g : GraphMeta) (_hwf : wellFormed g)
    (hW : 0 < g.width) (hH : 0 < g.height) :
    ∃ x y, x < g.width ∧ y < g.height ∧
      get_max_cycle g = cycleAt g x y ∧
      (∀ x2 y2, x2 < g.width → y2 < g.height →
        (cycleAt g x2 y2).length ≤ (cycleAt g x y).length) ∧
      (∀ x2 y2, x2 < g.width → y2 < g.height →
        (cycleAt g x2 y2).length = (cycleAt g x y).length →
        (x2, y2) ≠ (x, y) → (x < x2 ∨ (x = x2 ∧ y < y2))) := by
  obtain ⟨l1, c, l2, hsplit, hmax, hle, hpre⟩ := get_max_cycle_split hW hH
  have hcmem : c ∈ coordsList g.width g.height := by
    rw [hsplit]
    exact List.mem_append.mpr (Or.inr (List.mem_cons_self c l2))
  obtain ⟨hcx, hcy⟩ := mem_coordsList.mp hcmem
  refine ⟨c.1, c.2, hcx, hcy, hmax, ?_, ?_⟩
  · intro x2 y2 hx2 hy2
    exact hle (x2, y2) (mem_coordsList.mpr ⟨hx2, hy2⟩)
  · intro x2 y2 hx2 hy2 hlen hne
    have hemem : ((x2, y2) : Coord) ∈ coordsList g.width g.height :=
      mem_coordsList.mpr ⟨hx2, hy2⟩
    rw [hsplit] at hemem
    rcases List.mem_append.mp hemem with h1 | h2
    · exfalso
      have hlt : (cycleAt g x2 y2).length < (cycleAt g c.1 c.2).length :=
        hpre (x2, y2) h1
      omega
    · rcases List.mem_cons.mp h2 with heq | h3
      · exfalso
        apply hne
        rw [heq]
      · have hpw := pairwise_coordsList g.width g.height
        rw [hsplit] at hpw
        have := (List.pairwise_append.mp hpw).2.1
        have hrel := (List.pairwise_cons.mp this).1 (x2, y2) h3
        exact hrel

theorem claim_C3_witness :
    ∃ x y, x < exGrid.width ∧ y < exGrid.height ∧
      get_max_cycle exGrid = cycleAt exGrid x y ∧
      (∀ x2 y2, x2 < exGrid.width → y2 < exGrid.height →
        (cycleAt exGrid x2 y2).length ≤ (cycleAt exGrid x y).length) ∧
      (∀ x2 y2, x2 < exGrid.width → y2 < exGrid.height →
        (cycleAt exGrid x2 y2).length = (cycleAt exGrid x y).length →
        (x2, y2) ≠ (x, y) → (x < x2 ∨ (x = x2 ∧ y < y2))) :=
  claim_C3_tiebreak exGrid (by decide) (by decide) (by decide)

/-- Claim C4: `get_max_cycle` returns an empty cycle exactly on degenerate
grids; with positive dimensions the result is nonempty and its length is the
maximum over all coordinates of the length of the cycle traced there. -/
theorem claim_C4_max_length (g : GraphMeta) (_hwf : wellFormed g) :
    ((g.width = 0 ∨ g.height = 0) → get_max_cycle g = []) ∧
    (0 < g.width → 0 < g.height →
      get_max_cycle g ≠ [] ∧ 1 ≤ (get_max_cycle g).length ∧
      (∀ x y, x < g.width → y < g.height →
        (cycleAt g x y).length ≤ (get_max_cycle g).length) ∧
      (∃ x y, x < g.width ∧ y < g.height ∧
        (get_max_cycle g).length = (cycleAt g x y).length)) := by
  constructor
  · intro hwh
    unfold get_max_cycle
    rw [coordsList_nil hwh, List.foldl_nil]
  · intro hW hH
    obtain ⟨l1, c, l2, hsplit, hmax, hle, _hpre⟩ := get_max_cycle_split hW hH
    have hcmem : c ∈ coordsList g.width g.height := by
      rw [hsplit]
      exact List.mem_append.mpr (Or.inr (List.mem_cons_self c l2))
    obtain ⟨hcx, hcy⟩ := mem_coordsList.mp hcmem
    have hpos := (cycleAt_spec (g := g) hcx hcy).2
    refine ⟨?_, ?_, ?_, c.1, c.2, hcx, hcy, by rw [hmax]⟩
    · rw [hmax]
      intro hnil
      rw [hnil] at hpos
      simp at hpos
    · rw [hmax]
      exact hpos
    · intro x y hx hy
      rw [hmax]
      exact hle (x, y) (mem_coordsList.mpr ⟨hx, hy⟩)

theorem claim_C4_witness :
    ((exGrid.width = 0 ∨ exGrid.height = 0) → get_max_cycle exGrid = []) ∧
    (0 < exGrid.width → 0 < exGrid.height →
      get_max_cycle exGrid ≠ [] ∧ 1 ≤ (get_max_cycle exGrid).length ∧
      (∀ x y, x < exGrid.width → y < exGrid.height →
        (cycleAt exGrid x y).length ≤ (get_max_cycle exGrid).length) ∧
      (∃ x y, x < exGrid.width ∧ y < exGrid.height ∧
        (get_max_cycle exGrid).length = (cycleAt exGrid x y).length)) :=
  claim_C4_max_length exGrid (by decide)

/-! ### Claim theorems: `step` -/

/-- Claim C6 counterexamples, one per bound of the amended claim.  With
`p + delta` below `-D` (here `step(0, -4, 3)`) the negative intermediate
`dim + new = -1` is cast to `uint` and wraps to `2^64 - 1`, far outside
`[0, 3)` and unequal to the correct modulo `2`.  With `D > 2^63` (here
`step(2^63, 0, 2^64 - 1)`) the `as int` casts of `pos` and `dimension` wrap
and the result is `2^63 - 1` instead of the correct `2^63`.  With
`p + delta ≥ 2^63` (here `step(0, 2^63, 3)`) the signed addition itself
wraps and the result `2^63 + 3` is again out of range. -/
theorem claim_C6_counterexample :
    (step 0 (-4) 3 = 2 ^ 64 - 1 ∧ ¬ step 0 (-4) 3 < 3 ∧
      ((0 : Int) + (-4)) % (3 : Int) = 2) ∧
    (step (2 ^ 63) 0 (2 ^ 64 - 1) = 2 ^ 63 - 1 ∧
      ((2 ^ 63 : Int) + 0) % ((2 ^ 64 : Int) - 1) = 2 ^ 63) ∧
    (step 0 (2 ^ 63) 3 = 2 ^ 63 + 3 ∧ ¬ step 0 (2 ^ 63) 3 < 3) :=
  ⟨⟨by decide, by decide, by decide⟩, ⟨by decide, by decide⟩,
    ⟨by decide, by decide⟩⟩

/-- Claim C6 (amended): for every dimension `D` with `0 < D ≤ 2^63`, position
`p ∈ [0, D)`, and every integer `delta` with `-D ≤ p + delta < 2^63`, `step`
equals the mathematically correct non-negative modulo `(p + delta) mod D`
and lies in `[0, D)`.  The three added bounds keep the code's 64-bit casts
and additions from wrapping and each is forced by one conjunct of the
counterexample; every dimension and delta the program itself passes to
`step` satisfies them. -/
theorem claim_C6_step_is_mod (D p : Nat) (δ : Int) (hD : 0 < D)
    (hD2 : D ≤ 2 ^ 63) (hp : p < D) (hlo : -(D : Int) ≤ (p : Int) + δ)
    (hhi : (p : Int) + δ < 2 ^ 63) :
    ((step p δ D : Nat) : Int) = ((p : Int) + δ) % (D : Int) ∧ step p δ D < D :=
  step_spec hD hD2 hp hlo hhi

theorem claim_C6_witness :
    (0 < 3 ∧ (3 : Nat) ≤ 2 ^ 63 ∧ 1 < 3 ∧ -(3 : Int) ≤ (1 : Int) + (-2) ∧
      (1 : Int) + (-2) < 2 ^ 63) ∧
    (((step 1 (-2) 3 : Nat) : Int) = ((1 : Int) + (-2)) % (3 : Int) ∧
      step 1 (-2) 3 < 3) :=
  ⟨⟨by decide, by decide, by decide, by decide, by decide⟩,
    claim_C6_step_is_mod 3 1 (-2) (by decide) (by decide) (by decide)
      (by decide) (by decide)⟩

/-- Claim C7 counterexample: the wrap identity fails at `D = 2^63 + 1`.
There `(D - 1) as int` and `D as int` both wrap to negative values and
`step(D - 1, +1, D)` comes out as `2`, not `0`. -/
theorem claim_C7_counterexample :
    step (2 ^ 63 + 1 - 1) 1 (2 ^ 63 + 1) = 2 ∧
    step (2 ^ 63 + 1 - 1) 1 (2 ^ 63 + 1) ≠ 0 :=
  ⟨by decide, by decide⟩

/-- Claim C7 (amended): for every dimension `D` with `0 < D ≤ 2^63` — the
bound forced by the counterexample, and satisfied by every dimension a
materialisable grid can have — and `p ∈ [0, D)` with delta restricted to
`{-1, +1}`: `step` stays in `[0, D)`, and the wrap cases hold,
`step 0 (-1) D = D - 1` and `step (D-1) 1 D = 0`. -/
theorem claim_C7_step_total_and_wrap (D : Nat) (hD : 0 < D)
    (hD2 : D ≤ 2 ^ 63) :
    (∀ p, p < D → ∀ δ : Int, (δ = 1 ∨ δ = -1) → step p δ D < D) ∧
    step 0 (-1) D = D - 1 ∧ step (D - 1) 1 D = 0 := by
  refine ⟨fun p hp δ hδ => step_lt hD hp hδ, ?_, ?_⟩
  · have h := (step_spec (p := 0) (δ := -1) hD hD2 hD (by omega) (by omega)).1
    have h2 := emod_shift (a := ((0 : Nat) : Int) + (-1)) (D := (D : Int))
      (by omega) (by omega) (by omega)
    rw [h2] at h
    omega
  · by_cases hD3 : D = 2 ^ 63
    · subst hD3
      decide
    · have h := (step_spec (p := D - 1) (δ := 1) hD hD2 (by omega) (by omega)
        (by omega)).1
      have e : ((D - 1 : Nat) : Int) + 1 = (D : Int) := by omega
      rw [e, Int.emod_self] at h
      omega

theorem claim_C7_witness :
    (∀ p, p < 5 → ∀ δ : Int, (δ = 1 ∨ δ = -1) → step p δ 5 < 5) ∧
    step 0 (-1) 5 = 5 - 1 ∧ step (5 - 1) 1 5 = 0 :=
  claim_C7_step_total_and_wrap 5 (by decide) (by decide)

/-! ### Parsing lemmas and claim theorems -/

end Arrows
